import Mathlib

/-!
Verification of the compositional-statistics pipeline of
`Paolino-2023/comp_stats_notebook.ipynb` against its specification.

The notebook's computational core is embedded shallowly:

* `adjustValues` embeds the notebook's `adjust_values` (zero replacement),
  over `ℚ` so that the exact-arithmetic guarantees can be stated exactly.
* `clr` / `ilrWith` / `ilrChecked` model the isometric log-ratio transform
  (the implementation lives in the external `skbio` library, so it is
  modelled from the specification).
* `residualize` models the OLS residualization step (the implementation
  lives in the external `statsmodels` library, modelled from the spec).
* `calcLogRatio`, `keptIndices`, `colKept`, `percentile`, `runBootstrap`
  embed the notebook's bootstrap effect estimator, with the random
  resampling made explicit as index plans.
-/

namespace CompStats

/-! ### ZeroAdjuster: the notebook's `adjust_values`, over exact rationals

Source (notebook cell 3):
```python
def adjust_values(series):
    small_value = 0.0001
    zero_values = series == 0
    series[zero_values] += small_value
    total_added = small_value * zero_values.sum()
    if (~zero_values).sum() > 0:
        series[~zero_values] -= total_added / (~zero_values).sum()
    return series
```
The boolean mask `zero_values` is computed from the original entries, so
both counts and both branches are decided by each entry's original value;
the update is elementwise and is embedded as a `List.map`.
-/

/-- The notebook's `small_value = 0.0001`. -/
def smallValue : ℚ := 1 / 10000

/-- Number of zero entries of the series (`zero_values.sum()`). -/
def zeroCount (s : List ℚ) : ℕ := (s.filter (fun x => x = 0)).length

/-- Number of nonzero entries of the series (`(~zero_values).sum()`). -/
def nonzeroCount (s : List ℚ) : ℕ := (s.filter (fun x => ¬ x = 0)).length

/-- Embedding of the notebook's `adjust_values`: add `smallValue` to every
zero entry; if there is at least one nonzero entry, subtract the total
added amount evenly from the nonzero entries. -/
def adjustValues (s : List ℚ) : List ℚ :=
  s.map (fun x =>
    if x = 0 then x + smallValue
    else if 0 < nonzeroCount s then
      x - smallValue * (zeroCount s : ℚ) / (nonzeroCount s : ℚ)
    else x)

theorem zeroCount_cons (x : ℚ) (s : List ℚ) :
    zeroCount (x :: s) = if x = 0 then zeroCount s + 1 else zeroCount s := by
  simp only [zeroCount, List.filter_cons]
  by_cases hx : x = 0 <;> simp [hx]

theorem nonzeroCount_cons (x : ℚ) (s : List ℚ) :
    nonzeroCount (x :: s) = if x = 0 then nonzeroCount s else nonzeroCount s + 1 := by
  simp only [nonzeroCount, List.filter_cons]
  by_cases hx : x = 0 <;> simp [hx]

theorem nonzeroCount_pos (s : List ℚ) (x : ℚ) (hx : x ∈ s) (hx0 : x ≠ 0) :
    0 < nonzeroCount s := by
  have hmem : x ∈ s.filter (fun x => ¬ x = 0) := by
    simp [List.mem_filter, hx, hx0]
  have := List.length_pos.mpr (List.ne_nil_of_mem hmem)
  simpa [nonzeroCount] using this

/-- Sum of the elementwise adjustment with fixed offsets `a` (to zeros) and
`b` (from nonzeros). -/
theorem sum_map_adjust (s : List ℚ) (a b : ℚ) :
    (s.map (fun x => if x = 0 then x + a else x - b)).sum
      = s.sum + a * (zeroCount s : ℚ) - b * (nonzeroCount s : ℚ) := by
  induction s with
  | nil => simp [zeroCount, nonzeroCount]
  | cons x s ih =>
      by_cases hx : x = 0
      · simp only [List.map_cons, List.sum_cons, if_pos hx, ih, zeroCount_cons,
          nonzeroCount_cons, hx]
        push_cast
        ring
      · simp only [List.map_cons, List.sum_cons, if_neg hx, ih, zeroCount_cons,
          nonzeroCount_cons, hx, if_false]
        push_cast
        ring

theorem adjustValues_eq_of_nonzero (s : List ℚ) (hnz : 0 < nonzeroCount s) :
    adjustValues s
      = s.map (fun x => if x = 0 then x + smallValue
          else x - smallValue * (zeroCount s : ℚ) / (nonzeroCount s : ℚ)) := by
  unfold adjustValues
  exact List.map_congr_left fun x _ => by by_cases hx : x = 0 <;> simp [hx, hnz]

/-- C2: for every composition with at least one nonzero entry, the
zero-adjustment preserves the sum exactly (in exact arithmetic). -/
theorem adjust_values_sum_preserved (s : List ℚ) (h : ∃ x ∈ s, x ≠ 0) :
    (adjustValues s).sum = s.sum := by
  obtain ⟨x, hx, hx0⟩ := h
  have hnz := nonzeroCount_pos s x hx hx0
  rw [adjustValues_eq_of_nonzero s hnz, sum_map_adjust]
  have hne : (nonzeroCount s : ℚ) ≠ 0 := Nat.cast_ne_zero.mpr hnz.ne'
  rw [div_mul_cancel₀ _ hne]
  ring

/-- C2 witness: concrete composition `[1/2, 0]`. -/
theorem adjust_values_sum_preserved_witness :
    (∃ x ∈ [(1 : ℚ)/2, 0], x ≠ 0)
      ∧ (adjustValues [(1 : ℚ)/2, 0]).sum = [(1 : ℚ)/2, 0].sum :=
  ⟨⟨1/2, by simp, by norm_num⟩,
    adjust_values_sum_preserved _ ⟨1/2, by simp, by norm_num⟩⟩

/-- C10: with no zero entries, the zero-adjustment is the identity. -/
theorem adjust_values_id_of_no_zeros (s : List ℚ) (h : ∀ x ∈ s, x ≠ 0) :
    adjustValues s = s := by
  have hz : zeroCount s = 0 := by
    have : s.filter (fun x => x = 0) = [] :=
      List.filter_eq_nil_iff.mpr (fun a ha => by simpa using h a ha)
    simp [zeroCount, this]
  have : ∀ x ∈ s, (if x = 0 then x + smallValue
      else if 0 < nonzeroCount s then
        x - smallValue * (zeroCount s : ℚ) / (nonzeroCount s : ℚ) else x) = x := by
    intro x hx
    rw [if_neg (h x hx)]
    split <;> simp [hz]
  unfold adjustValues
  rw [List.map_congr_left this]
  simp

/-- C10 witness: concrete composition `[1/4, 3/4]`. -/
theorem adjust_values_id_of_no_zeros_witness :
    adjustValues [(1 : ℚ)/4, 3/4] = [(1 : ℚ)/4, 3/4] :=
  adjust_values_id_of_no_zeros _ (by
    intro x hx
    rcases List.mem_cons.mp hx with h | h
    · rw [h]; norm_num
    · rw [List.mem_singleton.mp h]; norm_num)

/-- C1 counterexample: on the all-zero composition `[0, 0, 0]` the code
returns a value (every entry replaced by `smallValue`); it raises no
`DegenerateCompositionError` — the division is skipped by the
`(~zero_values).sum() > 0` guard and a plain series is returned. -/
theorem adjust_values_all_zero_returns :
    adjustValues [0, 0, 0] = [smallValue, smallValue, smallValue] := by
  simp [adjustValues]

/-- C1 amended: for every all-zero composition, `adjust_values` raises
nothing and returns the composition with every entry replaced by
`smallValue` (no NaN or infinity is produced, but the sum is not
preserved). -/
theorem adjust_values_all_zero_eps (s : List ℚ) (h : ∀ x ∈ s, x = 0) :
    adjustValues s = s.map (fun _ => smallValue) := by
  unfold adjustValues
  exact List.map_congr_left fun x hx => by rw [if_pos (h x hx), h x hx, zero_add]

/-- C1 amended witness: the all-zero composition `[0, 0]`. -/
theorem adjust_values_all_zero_eps_witness :
    adjustValues [0, 0] = [(0 : ℚ), 0].map (fun _ => smallValue) :=
  adjust_values_all_zero_eps _ (by simp)

/-- C3 counterexample: the non-negative composition
`[1/100000, 99999/100000, 0, 0]` (sum `1`, two nonzero entries) is mapped
to an output whose first entry is negative: the even subtraction
`smallValue * 2 / 2 = 1/10000` exceeds the entry `1/100000`. -/
theorem adjust_values_nonpos_output :
    (∀ x ∈ [(1 : ℚ)/100000, 99999/100000, 0, 0], 0 ≤ x)
      ∧ (∃ x ∈ [(1 : ℚ)/100000, 99999/100000, 0, 0], x ≠ 0)
      ∧ ∃ y ∈ adjustValues [(1 : ℚ)/100000, 99999/100000, 0, 0], ¬ 0 < y := by
  have hz : zeroCount [(1 : ℚ)/100000, 99999/100000, 0, 0] = 2 := by
    norm_num [zeroCount, List.filter_cons]
  have hnz : nonzeroCount [(1 : ℚ)/100000, 99999/100000, 0, 0] = 2 := by
    norm_num [nonzeroCount, List.filter_cons]
  refine ⟨?_, ⟨1/100000, by simp, by norm_num⟩, ?_⟩
  · intro x hx
    simp only [List.mem_cons, List.not_mem_nil, or_false] at hx
    rcases hx with rfl | rfl | rfl | rfl <;> norm_num
  · unfold adjustValues
    refine ⟨_, List.mem_map_of_mem _
      (show (1 : ℚ)/100000 ∈ [(1 : ℚ)/100000, 99999/100000, 0, 0] by simp), ?_⟩
    rw [if_neg (by norm_num), if_pos (by rw [hnz]; norm_num), hz, hnz]
    norm_num [smallValue]

/-- C3 amended: for every non-negative input with at least one nonzero
entry, every originally-zero entry of the output is strictly positive
(it equals `smallValue`), unconditionally; and if in addition every
nonzero entry strictly exceeds the even deduction
`smallValue * zeroCount / nonzeroCount`, then every output entry is
strictly positive. -/
theorem adjust_values_pos_of_large_entries (s : List ℚ)
    (_h0 : ∀ x ∈ s, 0 ≤ x) (hex : ∃ x ∈ s, x ≠ 0) :
    (∀ i, (hi : i < s.length) → s[i] = 0 →
        (adjustValues s)[i]? = some smallValue ∧ 0 < smallValue)
      ∧ ((∀ x ∈ s, x ≠ 0 →
            smallValue * (zeroCount s : ℚ) / (nonzeroCount s : ℚ) < x) →
          ∀ y ∈ adjustValues s, 0 < y) := by
  obtain ⟨x, hx, hx0⟩ := hex
  have hnz := nonzeroCount_pos s x hx hx0
  constructor
  · intro i hi hzi
    refine ⟨?_, by norm_num [smallValue]⟩
    rw [adjustValues, List.getElem?_map, List.getElem?_eq_getElem hi]
    simp [hzi]
  · intro hbig y hy
    rw [adjustValues_eq_of_nonzero s hnz] at hy
    obtain ⟨z, hz, rfl⟩ := List.mem_map.mp hy
    by_cases hz0 : z = 0
    · rw [if_pos hz0, hz0]
      norm_num [smallValue]
    · rw [if_neg hz0]
      have := hbig z hz hz0
      linarith

/-- C3 amended witness: concrete composition `[1, 0]`. -/
theorem adjust_values_pos_of_large_entries_witness :
    (∀ i, (hi : i < ([(1 : ℚ), 0] : List ℚ).length) →
        ([(1 : ℚ), 0] : List ℚ)[i] = 0 →
        (adjustValues [(1 : ℚ), 0])[i]? = some smallValue ∧ 0 < smallValue)
      ∧ ((∀ x ∈ [(1 : ℚ), 0], x ≠ 0 →
            smallValue * (zeroCount [(1 : ℚ), 0] : ℚ)
              / (nonzeroCount [(1 : ℚ), 0] : ℚ) < x) →
          ∀ y ∈ adjustValues [(1 : ℚ), 0], 0 < y) :=
  adjust_values_pos_of_large_entries _
    (by intro x hx; rcases List.mem_cons.mp hx with rfl | h
        · norm_num
        · rw [List.mem_singleton.mp h])
    ⟨1, by simp, by norm_num⟩

/-! ### CompositionalTransformer: the isometric log-ratio transform

The notebook calls `ilr` from `skbio.stats.composition`; that
implementation is external library code, so the transform is modelled
from the specification (section 4.2): a fixed orthonormal contrast basis
applied to the log-transformed, geometric-mean-centered composition. -/

/-- Modelled from the spec: the centered log-ratio of a composition, the
log-transformed, geometric-mean-centered vector that the ILR basis is
applied to (`skbio`'s `clr` is not in the repository source). -/
noncomputable def clr (xs : List ℝ) : List ℝ :=
  xs.map (fun x => Real.log x - (xs.map Real.log).sum / (xs.length : ℝ))

/-- Dot product of two coordinate lists. -/
noncomputable def dotL (u v : List ℝ) : ℝ := (List.zipWith (· * ·) u v).sum

/-- Modelled from the spec: the isometric log-ratio transform as the
contrast-basis image of the centered log-ratio (`skbio`'s `ilr` is not in
the repository source; the fixed orthonormal basis is a parameter). -/
noncomputable def ilrWith (basis : List (List ℝ)) (xs : List ℝ) : List ℝ :=
  basis.map (fun b => dotL b (clr xs))

/-- Error kinds named by the specification (section 7). -/
inductive CompError where
  | degenerateComposition
  | invalidComposition
  | missingStratumLabel
  deriving DecidableEq

/-- Modelled from the spec: the transform's input contract — a zero or
negative entry signals `InvalidCompositionError` instead of producing
coordinates (spec section 4.2, Failure clause). -/
noncomputable def ilrChecked (basis : List (List ℝ)) (xs : List ℝ) :
    Except CompError (List ℝ) :=
  if ∀ x ∈ xs, 0 < x then .ok (ilrWith basis xs)
  else .error .invalidComposition

theorem sum_map_add_const (l : List ℝ) (a : ℝ) (f : ℝ → ℝ) :
    (l.map (fun x => a + f x)).sum = (l.length : ℝ) * a + (l.map f).sum := by
  induction l with
  | nil => simp
  | cons x l ih => simp [ih]; ring

/-- Scaling every entry by a positive constant leaves the centered
log-ratio unchanged. -/
theorem clr_smul (c : List ℝ) (k : ℝ) (hk : 0 < k) (hc : ∀ x ∈ c, 0 < x) :
    clr (c.map (fun x => k * x)) = clr c := by
  by_cases hc0 : c = []
  · subst hc0; simp [clr]
  have hn : (c.length : ℝ) ≠ 0 :=
    Nat.cast_ne_zero.mpr (List.length_pos.mpr hc0).ne'
  have hlog : (c.map (fun x => k * x)).map Real.log
      = c.map (fun x => Real.log k + Real.log x) := by
    rw [List.map_map]
    exact List.map_congr_left fun x hx => by
      exact Real.log_mul (ne_of_gt hk) (ne_of_gt (hc x hx))
  have hsum : ((c.map (fun x => k * x)).map Real.log).sum
      = (c.length : ℝ) * Real.log k + (c.map Real.log).sum := by
    rw [hlog, sum_map_add_const]
  unfold clr
  rw [List.map_map, hsum, List.length_map]
  exact List.map_congr_left fun x hx => by
    rw [Function.comp, Real.log_mul (ne_of_gt hk) (ne_of_gt (hc x hx))]
    field_simp
    ring

/-- C7: the compositional transform is scale-invariant — multiplying a
strictly positive composition by a positive scalar does not change its
ILR coordinates, for any (in particular the fixed orthonormal) contrast
basis. -/
theorem ilr_scale_invariant (basis : List (List ℝ)) (c : List ℝ) (k : ℝ)
    (hk : 0 < k) (hc : ∀ x ∈ c, 0 < x) :
    ilrWith basis (c.map (fun x => k * x)) = ilrWith basis c := by
  unfold ilrWith
  rw [clr_smul c k hk hc]

/-- C7 witness: basis `[[1, -1]]`, composition `[1, 2]`, scalar `2`. -/
theorem ilr_scale_invariant_witness :
    ilrWith [[1, -1]] ([(1 : ℝ), 2].map (fun x => 2 * x))
      = ilrWith [[1, -1]] [(1 : ℝ), 2] :=
  ilr_scale_invariant _ _ _ (by norm_num)
    (by intro x hx; rcases List.mem_cons.mp hx with rfl | h
        · norm_num
        · rw [List.mem_singleton.mp h]; norm_num)

/-- C8: a composition containing a zero or negative entry is rejected by
the transform with `InvalidCompositionError` instead of coordinates. -/
theorem ilr_rejects_nonpositive (basis : List (List ℝ)) (xs : List ℝ)
    (h : ∃ x ∈ xs, x ≤ 0) :
    ilrChecked basis xs = .error .invalidComposition := by
  unfold ilrChecked
  rw [if_neg]
  intro hall
  obtain ⟨x, hx, hx0⟩ := h
  exact absurd (hall x hx) (not_lt.mpr hx0)

/-- C8 witness: the composition `[1, 0]` contains a zero entry. -/
theorem ilr_rejects_nonpositive_witness :
    ilrChecked [[1, -1]] [(1 : ℝ), 0] = .error .invalidComposition :=
  ilr_rejects_nonpositive _ _ ⟨0, by simp, le_refl 0⟩

/-! ### Residualizer

The notebook computes `ols('ILR_pk ~ C(Species)', data=ilr_dfs).fit().resid`
for each coordinate; `statsmodels`' OLS is external library code.  The
residualization is modelled from the specification (section 4.3): OLS of
one coordinate on a saturated one-hot categorical design, whose fitted
value for a row is the mean of the coordinate over that row's group, the
residual being observed minus fitted. -/

/-- Arithmetic mean of a list (`0` on the empty list, which the callers
below never hit under their hypotheses). -/
noncomputable def listMean (xs : List ℝ) : ℝ := xs.sum / (xs.length : ℝ)

/-- Rows of a (group label, coordinate value) table carrying label `g`. -/
def groupRows (rows : List (String × ℝ)) (g : String) : List (String × ℝ) :=
  rows.filter (fun r => r.1 == g)

/-- Modelled from the spec: the fitted value of the saturated one-hot OLS
design for group `g` — the group's mean coordinate value. -/
noncomputable def groupMean (rows : List (String × ℝ)) (g : String) : ℝ :=
  listMean ((groupRows rows g).map Prod.snd)

/-- Modelled from the spec: per-row OLS residual of a coordinate against
the categorical grouping factor (observed minus fitted group mean), one
residual per input row in input order. -/
noncomputable def residualize (rows : List (String × ℝ)) : List ℝ :=
  rows.map (fun r => r.2 - groupMean rows r.1)

theorem sum_map_sub_const (l : List (String × ℝ)) (c : ℝ) :
    (l.map (fun r => r.2 - c)).sum = (l.map Prod.snd).sum - (l.length : ℝ) * c := by
  induction l with
  | nil => simp
  | cons x l ih => simp [ih]; ring

/-- C9: the residualization yields one residual per input row in input
order (the `i`-th residual is the `i`-th row's observed value minus its
group's fitted mean), and within every group that occurs, the residuals
have mean exactly zero. -/
theorem residualizer_zero_mean (rows : List (String × ℝ)) (g : String)
    (hg : groupRows rows g ≠ []) :
    (residualize rows).length = rows.length
      ∧ (∀ i, (h : i < rows.length) →
          (residualize rows)[i]? = some (rows[i].2 - groupMean rows rows[i].1))
      ∧ listMean ((groupRows rows g).map (fun r => r.2 - groupMean rows r.1)) = 0 := by
  refine ⟨by simp [residualize], ?_, ?_⟩
  · intro i h
    rw [residualize, List.getElem?_map, List.getElem?_eq_getElem h]
    rfl
  · have hmem : ∀ r ∈ groupRows rows g, r.1 = g := by
      intro r hr
      have := List.mem_filter.mp hr
      exact eq_of_beq this.2
    rw [List.map_congr_left (fun r hr => by rw [hmem r hr] :
      ∀ r ∈ groupRows rows g, r.2 - groupMean rows r.1 = r.2 - groupMean rows g)]
    have hn : ((groupRows rows g).length : ℝ) ≠ 0 :=
      Nat.cast_ne_zero.mpr (List.length_pos.mpr hg).ne'
    unfold listMean groupMean listMean
    rw [sum_map_sub_const, List.length_map]
    field_simp

/-- C9 witness: rows `[("a", 1), ("a", 3)]`, group `"a"`. -/
theorem residualizer_zero_mean_witness :
    (residualize [("a", (1 : ℝ)), ("a", 3)]).length = 2
      ∧ (∀ i, (h : i < ([("a", (1 : ℝ)), ("a", 3)] : List (String × ℝ)).length) →
          (residualize [("a", (1 : ℝ)), ("a", 3)])[i]? =
            some (([("a", (1 : ℝ)), ("a", 3)] : List (String × ℝ))[i].2
              - groupMean [("a", (1 : ℝ)), ("a", 3)]
                  (([("a", (1 : ℝ)), ("a", 3)] : List (String × ℝ))[i].1)))
      ∧ listMean ((groupRows [("a", (1 : ℝ)), ("a", 3)] "a").map
          (fun r => r.2 - groupMean [("a", (1 : ℝ)), ("a", 3)] r.1)) = 0 :=
  residualizer_zero_mean [("a", (1 : ℝ)), ("a", 3)] "a" (by simp [groupRows])

/-! ### BootstrapEffectEstimator

Source (notebook cell 9):
```python
def calc_log_ratio(data):
    boot_data = data.sample(n=len(data), replace=True)
    Mm = boot_data[boot_data['Species'] == 'Ms']
    Sc = boot_data[boot_data['Species'] == 'FTD']
    gm_mm = np.exp(np.mean(np.log(Mm['prop_cells_reg'])))
    gm_sc = np.exp(np.mean(np.log(Sc['prop_cells_reg'])))
    return np.log(gm_mm/gm_sc)

for layer in comp_df['Layer'].unique():
    layer_data = comp_df[comp_df['Layer'] == layer]
    boot_results = [calc_log_ratio(layer_data) for _ in range(5000)]
    results[layer] = boot_results
results_df = pd.DataFrame(results)
results_df = results_df.dropna()
means = results_df.mean()
ci_lower = results_df.apply(lambda x: np.percentile(x, 2.5))
ci_upper = results_df.apply(lambda x: np.percentile(x, 97.5))
```
The random draw `data.sample(n=len(data), replace=True)` is embedded as an
explicit index plan (one list of row indices per layer and per iteration),
so a resample of the original size is a plan of length `len(data)` whose
indices are in range.  `np.mean` over an empty slice yields NaN, which
then propagates through `np.exp`/`np.log`; NaN is embedded as `none`,
which is exactly the case where a label's subset of the resample is
empty. -/

/-- One row of the input table: Species and Layer labels plus the adjusted
proportion `prop_cells_reg`. -/
structure Row where
  species : String
  layer : String
  prop : ℝ

/-- Embedding of a concrete resample draw: the rows of `data` selected by
the index plan (`data.sample(n=len(data), replace=True)` with the random
choices made explicit). -/
def resample (data : List Row) (plan : List ℕ) : List Row :=
  plan.filterMap (fun i => data[i]?)

/-- Rows of a table whose Species label is `s`
(`boot_data[boot_data['Species'] == s]`). -/
def speciesRows (d : List Row) (s : String) : List Row :=
  d.filter (fun r => r.species == s)

/-- Embedding of `np.exp(np.mean(np.log(xs)))`. -/
noncomputable def geomMean (xs : List ℝ) : ℝ :=
  Real.exp ((xs.map Real.log).sum / (xs.length : ℝ))

/-- Embedding of the notebook's `calc_log_ratio` on one explicit resample:
split the resample by the two Species labels and return the log-ratio of
their geometric means.  `none` embeds the NaN that `np.mean` produces on
an empty slice, i.e. a resample with zero rows for one of the labels. -/
noncomputable def calcLogRatio (data : List Row) (plan : List ℕ) : Option ℝ :=
  if (speciesRows (resample data plan) "Ms").isEmpty
      || (speciesRows (resample data plan) "FTD").isEmpty then none
  else some (Real.log
    (geomMean ((speciesRows (resample data plan) "Ms").map Row.prop)
      / geomMean ((speciesRows (resample data plan) "FTD").map Row.prop)))

/-- Order-preserving deduplication, first occurrence kept
(`comp_df['Layer'].unique()`). -/
def uniqueFirst (l : List String) : List String :=
  l.foldl (fun acc x => if x ∈ acc then acc else acc ++ [x]) []

/-- Rows of the table belonging to one layer
(`comp_df[comp_df['Layer'] == layer]`). -/
def layerData (data : List Row) (L : String) : List Row :=
  data.filter (fun r => r.layer == L)

/-- One layer's column of 5000 bootstrap statistics
(`[calc_log_ratio(layer_data) for _ in range(5000)]`), with the random
draw of layer `L`, iteration `t` given by `planOf L t`. -/
noncomputable def bootColumn (data : List Row) (planOf : String → ℕ → List ℕ)
    (L : String) : List (Option ℝ) :=
  (List.range 5000).map (fun t => calcLogRatio (layerData data L) (planOf L t))

/-- Embedding of `results_df.dropna()` on a table given as columns of equal
length `R`: the iteration indices kept are those where every column is
non-NaN (pandas `dropna` removes a whole row when any column holds NaN). -/
def keptIndices (cols : List (List (Option ℝ))) (R : ℕ) : List ℕ :=
  (List.range R).filter (fun i => cols.all (fun col => ((col[i]?).bind id).isSome))

/-- The surviving values of one column after the row drop. -/
def colKept (col : List (Option ℝ)) (kept : List ℕ) : List ℝ :=
  kept.filterMap (fun i => (col[i]?).bind id)

/-- Embedding of `np.percentile(xs, q)` with the default linear
interpolation: value at fractional position `q/100 * (n-1)` of the sorted
data (the empty-list case, on which numpy raises, is given the junk value
`0` and is never reached under the theorems' hypotheses). -/
noncomputable def percentile (xs : List ℝ) (q : ℚ) : ℝ :=
  let s := List.insertionSort (· ≤ ·) xs
  let pos : ℚ := q / 100 * ((s.length : ℚ) - 1)
  let lo : ℕ := (⌊pos⌋).toNat
  let x0 := s.getD lo 0
  let x1 := s.getD (lo + 1) x0
  x0 + ((pos : ℝ) - (lo : ℝ)) * (x1 - x0)

/-- The per-layer bootstrap columns in layer order. -/
noncomputable def bootCols (data : List Row) (planOf : String → ℕ → List ℕ) :
    List (List (Option ℝ)) :=
  (uniqueFirst (data.map Row.layer)).map (fun L => bootColumn data planOf L)

/-- One layer's surviving statistics after the shared `dropna` row drop. -/
noncomputable def keptVals (data : List Row) (planOf : String → ℕ → List ℕ)
    (L : String) : List ℝ :=
  colKept (bootColumn data planOf L) (keptIndices (bootCols data planOf) 5000)

/-- One layer's summary triple: mean, 2.5th and 97.5th percentile of its
surviving statistics (`means`, `ci_lower`, `ci_upper`). -/
noncomputable def layerSummary (data : List Row) (planOf : String → ℕ → List ℕ)
    (L : String) : String × ℝ × ℝ × ℝ :=
  (L, listMean (keptVals data planOf L),
    percentile (keptVals data planOf L) (5/2),
    percentile (keptVals data planOf L) (195/2))

/-- Embedding of the whole bootstrap pass: per layer (in first-occurrence
order), 5000 resample statistics, the shared `dropna`, and the mean and
[2.5, 97.5] percentile aggregation. -/
noncomputable def runBootstrap (data : List Row)
    (planOf : String → ℕ → List ℕ) : List (String × ℝ × ℝ × ℝ) :=
  (uniqueFirst (data.map Row.layer)).map (layerSummary data planOf)

theorem filterMap_getElem_range {α : Type} (col : List (Option α)) :
    (List.range col.length).filterMap (fun i => (col[i]?).bind id)
      = col.reduceOption := by
  induction col with
  | nil => simp
  | cons a col ih =>
      rw [List.length_cons, List.range_succ_eq_map, List.filterMap_cons,
        List.filterMap_map]
      have hcomp : ((fun i => ((a :: col)[i]?).bind id) ∘ Nat.succ)
          = fun i => (col[i]?).bind id := by
        funext i
        simp
      rw [hcomp, ih]
      cases a <;> simp [List.reduceOption_cons_of_some]

theorem reduceOption_length_of_isSome {α : Type} (c : List (Option α))
    (h : ∀ x ∈ c, x.isSome = true) : c.reduceOption.length = c.length := by
  induction c with
  | nil => simp
  | cons a c ih =>
      cases a with
      | none => exact absurd (h none (List.mem_cons_self _ _)) (by simp)
      | some v =>
          rw [List.reduceOption_cons_of_some, List.length_cons, List.length_cons,
            ih (fun x hx => h x (List.mem_cons_of_mem _ hx))]

theorem filterMap_length_of_isSome {α β : Type} (l : List α) (f : α → Option β)
    (h : ∀ x ∈ l, (f x).isSome = true) : (l.filterMap f).length = l.length := by
  induction l with
  | nil => simp
  | cons a l ih =>
      rcases Option.isSome_iff_exists.mp (h a (List.mem_cons_self _ _)) with ⟨b, hb⟩
      rw [List.filterMap_cons, hb, List.length_cons, List.length_cons,
        ih (fun x hx => h x (List.mem_cons_of_mem _ hx))]

theorem keptIndices_eq_range (cols : List (List (Option ℝ))) (R : ℕ)
    (h : ∀ col ∈ cols, ∀ i, i < R → ((col[i]?).bind id).isSome = true) :
    keptIndices cols R = List.range R := by
  apply List.filter_eq_self.mpr
  intro i hi
  exact List.all_eq_true.mpr fun col hc => h col hc i (List.mem_range.mp hi)

/-- C4 counterexample: a 2-iteration, 2-stratum table in which iteration 0
is NaN for stratum A only.  `dropna` drops the whole row, so stratum B's
defined iteration-0 value `1` is also excluded: B's surviving values are
`[3]`, not the per-stratum `[1, 3]` the claim demands. -/
theorem dropna_drops_defined_entry :
    colKept [some (1 : ℝ), some 3]
        (keptIndices [[none, some 2], [some 1, some 3]] 2) ≠ [1, 3] := by
  have h1 : keptIndices [[none, some (2 : ℝ)], [some 1, some 3]] 2 = [1] := rfl
  have h2 : colKept [some (1 : ℝ), some 3] [1] = [3] := rfl
  rw [h1, h2]
  simp

/-- C4 amended: the drop policy is per iteration across the whole run — a
NaN for any one stratum at iteration `i` removes iteration `i` from every
stratum's aggregation, because `dropna` removes the whole row. -/
theorem dropna_row_excluded (cols : List (List (Option ℝ))) (R i : ℕ)
    (col : List (Option ℝ)) (hc : col ∈ cols) (hi : col[i]? = some none) :
    i ∉ keptIndices cols R := by
  intro hmem
  have hall := List.all_eq_true.mp (List.mem_filter.mp hmem).2 col hc
  rw [hi] at hall
  simp at hall

/-- C4 amended witness: iteration 0, NaN in the first stratum's column. -/
theorem dropna_row_excluded_witness :
    0 ∉ keptIndices [[none, some (2 : ℝ)], [some 1, some 3]] 2 :=
  dropna_row_excluded _ 2 0 [none, some 2] (by simp) rfl

/-- C5 counterexample: a stratum holding only `'Ms'` rows makes
`calc_log_ratio` return NaN (embedded as `none`) — the code raises no
`MissingStratumLabelError`; it produces the NaN result the claim rules
out. -/
theorem calc_log_ratio_nan_when_label_missing :
    calcLogRatio [⟨"Ms", "L1", 1⟩] [0] = none := rfl

/-- C5 amended: when the data passed to `calc_log_ratio` lacks either of
the two expected labels (`'Ms'` or `'FTD'`) entirely, every bootstrap
iteration yields an undefined (NaN) statistic, whatever the resample
plan; no error is raised. -/
theorem calc_log_ratio_none_of_missing_label (data : List Row)
    (plan : List ℕ)
    (h : (∀ r ∈ data, r.species ≠ "Ms") ∨ (∀ r ∈ data, r.species ≠ "FTD")) :
    calcLogRatio data plan = none := by
  have hsub : ∀ r ∈ resample data plan, r ∈ data := by
    intro r hr
    obtain ⟨i, _, hi⟩ := List.mem_filterMap.mp hr
    exact List.getElem?_mem hi
  rcases h with h | h
  · have hmm : speciesRows (resample data plan) "Ms" = [] :=
      List.filter_eq_nil_iff.mpr (fun r hr => by
        simpa using h r (hsub r hr))
    rw [calcLogRatio, hmm]
    simp
  · have hsc : speciesRows (resample data plan) "FTD" = [] :=
      List.filter_eq_nil_iff.mpr (fun r hr => by
        simpa using h r (hsub r hr))
    rw [calcLogRatio, hsc]
    simp

/-- C5 amended witness: a stratum labelled `'FTD'` only (the `'Ms'` label
is the missing one). -/
theorem calc_log_ratio_none_of_missing_label_witness :
    calcLogRatio [⟨"FTD", "L1", 1⟩, ⟨"FTD", "L1", 2⟩] [0, 1] = none :=
  calc_log_ratio_none_of_missing_label _ _ (Or.inl (by
    intro r hr
    rcases List.mem_cons.mp hr with rfl | h
    · decide
    · rw [List.mem_singleton.mp h]
      decide))

theorem bootColumn_length (data : List Row) (planOf : String → ℕ → List ℕ)
    (L : String) : (bootColumn data planOf L).length = 5000 := by
  simp [bootColumn]

theorem bootColumn_getElem (data : List Row) (planOf : String → ℕ → List ℕ)
    (L : String) (i : ℕ) (hi : i < 5000) :
    (bootColumn data planOf L)[i]?
      = some (calcLogRatio (layerData data L) (planOf L i)) := by
  rw [bootColumn, List.getElem?_map, List.getElem?_range hi]
  rfl

theorem bootColumn_mem (data : List Row) (planOf : String → ℕ → List ℕ)
    (L : String) (x : Option ℝ) (hx : x ∈ bootColumn data planOf L) :
    ∃ t, t < 5000 ∧ x = calcLogRatio (layerData data L) (planOf L t) := by
  obtain ⟨t, ht, h⟩ := List.mem_map.mp hx
  exact ⟨t, List.mem_range.mp ht, h.symm⟩

theorem calcLogRatio_eq_of_isSome (d : List Row) (p : List ℕ)
    (h : (calcLogRatio d p).isSome = true) :
    calcLogRatio d p = some (Real.log
      (geomMean ((speciesRows (resample d p) "Ms").map Row.prop)
        / geomMean ((speciesRows (resample d p) "FTD").map Row.prop))) := by
  by_cases hcond : ((speciesRows (resample d p) "Ms").isEmpty
      || (speciesRows (resample d p) "FTD").isEmpty) = true
  · rw [calcLogRatio, if_pos hcond] at h
    simp at h
  · rw [calcLogRatio, if_neg hcond]

theorem resample_length (d : List Row) (p : List ℕ)
    (hp : ∀ i ∈ p, i < d.length) : (resample d p).length = p.length := by
  apply filterMap_length_of_isSome
  intro i hi
  rw [List.getElem?_eq_getElem (hp i hi)]
  rfl

/-- With every iteration's statistic defined in every layer, the shared
`dropna` drops nothing: each layer's surviving values are exactly its
5000 statistics. -/
theorem keptVals_eq_reduceOption (data : List Row)
    (planOf : String → ℕ → List ℕ)
    (hdef : ∀ L' ∈ uniqueFirst (data.map Row.layer), ∀ t, t < 5000 →
      (calcLogRatio (layerData data L') (planOf L' t)).isSome = true)
    (L : String) :
    keptVals data planOf L = (bootColumn data planOf L).reduceOption := by
  have hkept : keptIndices (bootCols data planOf) 5000 = List.range 5000 := by
    apply keptIndices_eq_range
    intro col hcol i hi
    obtain ⟨L', hL', rfl⟩ := List.mem_map.mp hcol
    rw [bootColumn_getElem data planOf L' i hi]
    simpa using hdef L' hL' i hi
  have hlen : List.range 5000 = List.range (bootColumn data planOf L).length := by
    rw [bootColumn_length]
  rw [keptVals, hkept, hlen, colKept]
  exact filterMap_getElem_range _

/-- C6: under explicit resample plans (each of the original stratum size,
indices in range) and with every iteration's statistic defined, the run's
entry for the `j`-th layer `L` is the triple of the mean, the 2.5th and
the 97.5th percentile of that layer's 5000 iteration statistics; each
iteration statistic is the log-ratio of the geometric means of the `'Ms'`
and `'FTD'` proportions of a with-replacement resample of the original
stratum size. -/
theorem bootstrap_estimator_spec (data : List Row)
    (planOf : String → ℕ → List ℕ) (j : ℕ) (L : String)
    (hL : (uniqueFirst (data.map Row.layer))[j]? = some L)
    (hdef : ∀ L' ∈ uniqueFirst (data.map Row.layer), ∀ t, t < 5000 →
      (calcLogRatio (layerData data L') (planOf L' t)).isSome = true)
    (hplan : ∀ t, t < 5000 → (planOf L t).length = (layerData data L).length
      ∧ ∀ i ∈ planOf L t, i < (layerData data L).length) :
    ((runBootstrap data planOf)[j]? = some
        (L, listMean ((bootColumn data planOf L).reduceOption),
          percentile ((bootColumn data planOf L).reduceOption) (5/2),
          percentile ((bootColumn data planOf L).reduceOption) (195/2)))
      ∧ (bootColumn data planOf L).reduceOption.length = 5000
      ∧ ∀ t, t < 5000 →
          (resample (layerData data L) (planOf L t)).length
              = (layerData data L).length
          ∧ calcLogRatio (layerData data L) (planOf L t) = some (Real.log
              (geomMean ((speciesRows (resample (layerData data L)
                  (planOf L t)) "Ms").map Row.prop)
                / geomMean ((speciesRows (resample (layerData data L)
                    (planOf L t)) "FTD").map Row.prop))) := by
  have hLmem : L ∈ uniqueFirst (data.map Row.layer) := List.getElem?_mem hL
  have hv := keptVals_eq_reduceOption data planOf hdef L
  refine ⟨?_, ?_, ?_⟩
  · simp [runBootstrap, List.getElem?_map, hL, layerSummary, hv]
  · have hall : ∀ x ∈ bootColumn data planOf L, x.isSome = true := by
      intro x hx
      obtain ⟨t, ht, rfl⟩ := bootColumn_mem data planOf L x hx
      exact hdef L hLmem t ht
    rw [reduceOption_length_of_isSome _ hall, bootColumn_length]
  · intro t ht
    exact ⟨by rw [resample_length _ _ (hplan t ht).2, (hplan t ht).1],
      calcLogRatio_eq_of_isSome _ _ (hdef L hLmem t ht)⟩

/-- Two-row demonstration stratum for the bootstrap witness. -/
noncomputable def demoRows : List Row := [⟨"Ms", "L1", 1⟩, ⟨"FTD", "L1", 2⟩]

/-- Resample plan taking both rows, for every layer and iteration. -/
def demoPlan : String → ℕ → List ℕ := fun _ _ => [0, 1]

/-- C6 witness: the two-row stratum with the identity resample plan. -/
theorem bootstrap_estimator_spec_witness :
    ((runBootstrap demoRows demoPlan)[0]? = some
        ("L1", listMean ((bootColumn demoRows demoPlan "L1").reduceOption),
          percentile ((bootColumn demoRows demoPlan "L1").reduceOption) (5/2),
          percentile ((bootColumn demoRows demoPlan "L1").reduceOption) (195/2)))
      ∧ (bootColumn demoRows demoPlan "L1").reduceOption.length = 5000
      ∧ ∀ t, t < 5000 →
          (resample (layerData demoRows "L1") (demoPlan "L1" t)).length
              = (layerData demoRows "L1").length
          ∧ calcLogRatio (layerData demoRows "L1") (demoPlan "L1" t)
              = some (Real.log
              (geomMean ((speciesRows (resample (layerData demoRows "L1")
                  (demoPlan "L1" t)) "Ms").map Row.prop)
                / geomMean ((speciesRows (resample (layerData demoRows "L1")
                    (demoPlan "L1" t)) "FTD").map Row.prop))) :=
  bootstrap_estimator_spec demoRows demoPlan 0 "L1" rfl
    (by
      intro L' hL' t ht
      have hu : uniqueFirst (demoRows.map Row.layer) = ["L1"] := rfl
      rw [hu] at hL'
      rw [List.mem_singleton.mp hL']
      rfl)
    (by
      intro t ht
      refine ⟨rfl, ?_⟩
      show ∀ i ∈ ([0, 1] : List ℕ), i < (layerData demoRows "L1").length
      decide)

end CompStats
